import Mathlib

/-!
Verification of the harmonia score-overlay geometry engine.

The development embeds the score-coordinate engine of the repository:
the calibration transform and overlay renderer geometry (namespace
Canvas, from the canvas renderer module), and the score document parser
with its layout model and pitch mapper (namespace ScoreParser, from
scoreParser.ts).  Real numbers of the source are modelled as rationals
(exact arithmetic) except for the mock-confidence value, which uses the
real sine function and a real exponent and is therefore modelled in the
reals.  A JavaScript NaN arising from a lookup miss is modelled by an
Option being none.
-/

namespace Harmonia

/-- Duration classes of a note (types module). -/
inductive NoteType where
  | whole
  | half
  | quarter
  | eighth
  | sixteenth
  | thirtySecond
  | sixtyFourth
deriving DecidableEq, Repr

/-- Stem direction of a note (types module). -/
inductive StemDir where
  | up
  | down
  | none
deriving DecidableEq, Repr

/-- Review status of a note (types module). -/
inductive NoteStatus where
  | unreviewed
  | verified
  | corrected
deriving DecidableEq, Repr

/-- Calibration state: per-axis offset and scale in canvas pixels plus an
independent symbol-size multiplier (types module). -/
structure CalibrationState where
  offsetX : ℚ
  offsetY : ℚ
  scaleX : ℚ
  scaleY : ℚ
  noteScale : ℚ
deriving DecidableEq, Repr

namespace Canvas

/-- Note record as consumed by the canvas renderer (types module). -/
structure NoteData where
  id : String
  step : String
  octave : ℤ
  alter : ℤ
  noteType : NoteType
  absX : ℚ
  absY : ℚ
  stemDir : StemDir
  confidence : ℚ
  partIndex : ℕ
  measureNum : String
  measureIndex : ℕ
  systemIndex : ℕ
  isRest : Bool
  status : NoteStatus
deriving DecidableEq, Repr

/-- Page width in tenths (canvas renderer constant). -/
def PAGE_W : ℚ := 1365

/-- Page height in tenths (canvas renderer constant). -/
def PAGE_H : ℚ := 1922

/-- Staff height in tenths (canvas renderer constant). -/
def STAFF_H_TENTHS : ℚ := 40

/-- Staff top-Y positions in tenths for each system and part (canvas
renderer constant). -/
def STAFF_TOPS : List (List ℚ) := [[333, 445, 556], [785, 897, 1008]]

/-- System of a measure index: measures 0-3 are system 0, the rest
system 1 (canvas renderer). -/
def SYS_OF_MEASURE (mi : ℕ) : ℕ := if mi < 4 then 0 else 1

/-- Identity calibration, the renderer default. -/
def DEFAULT_CALIBRATION : CalibrationState :=
  { offsetX := 0, offsetY := 0, scaleX := 1, scaleY := 1, noteScale := 1 }

/-- Apply calibration to a raw canvas coordinate (one axis). -/
def applyCalib (raw scale offset : ℚ) : ℚ := raw * scale + offset

/-- Inverse-calibrate: convert a canvas pixel back to raw coordinate
space (one axis).  The source divides without a zero check; over the
rationals division by zero is total, matching the documented caller-side
precondition that scale is never zero. -/
def inverseCalib (px scale offset : ℚ) : ℚ := (px - offset) / scale

/-- Symbol scale in pixels: staff height, projected by the page-to-canvas
ratio, times the noteScale multiplier (drawAllNotes). -/
def staffPx (canvasH : ℚ) (calibration : CalibrationState) : ℚ :=
  STAFF_H_TENTHS * (canvasH / PAGE_H) * calibration.noteScale

/-- Horizontal head radius in pixels with its floor minimum
(drawAllNotes). -/
def headRx (canvasH : ℚ) (calibration : CalibrationState) : ℚ :=
  max 3.5 (staffPx canvasH calibration * 0.22)

/-- Vertical head radius in pixels with its floor minimum
(drawAllNotes). -/
def headRy (canvasH : ℚ) (calibration : CalibrationState) : ℚ :=
  max 2.5 (staffPx canvasH calibration * 0.13)

/-- Stem length in pixels with its floor minimum (drawAllNotes). -/
def stemLenPx (canvasH : ℚ) (calibration : CalibrationState) : ℚ :=
  max 12 (staffPx canvasH calibration * 0.88)

/-- Half ledger interval in pixels with its floor minimum
(drawAllNotes); the ledger routine receives twice this value. -/
def lineSpacingPx (canvasH : ℚ) (calibration : CalibrationState) : ℚ :=
  max 2 (staffPx canvasH calibration * 0.25)

/-- Canvas-space x of a note head center: page-to-canvas projection of
absX composed with the x calibration (drawAllNotes). -/
def noteCx (note : NoteData) (canvasW : ℚ) (calibration : CalibrationState) : ℚ :=
  applyCalib (note.absX * (canvasW / PAGE_W)) calibration.scaleX calibration.offsetX

/-- Canvas-space y of a note head center: page-to-canvas projection of
absY composed with the y calibration (drawAllNotes). -/
def noteCy (note : NoteData) (canvasH : ℚ) (calibration : CalibrationState) : ℚ :=
  applyCalib (note.absY * (canvasH / PAGE_H)) calibration.scaleY calibration.offsetY

/-- The ascending while loop emitting ledger-line y positions above the
staff: starting at the given ly it emits a line and steps one interval
up (smaller y) while ly is within 0.4 interval of the note center
(drawLedgerLines).  For a non-positive interval the source loop would
not terminate; the caller always passes a positive interval and the
model returns the empty list in that impossible case. -/
def aboveFrom (cy lineSpacing ly : ℚ) : List ℚ :=
  if h : 0 < lineSpacing ∧ cy - lineSpacing * 0.4 ≤ ly then
    ly :: aboveFrom cy lineSpacing (ly - lineSpacing)
  else []
termination_by (⌈(ly - (cy - lineSpacing * 0.4)) / lineSpacing⌉ + 1).toNat
decreasing_by
  have hL := h.1
  have ht : (0:ℚ) ≤ (ly - (cy - lineSpacing * 0.4)) / lineSpacing := by
    apply div_nonneg _ (le_of_lt hL)
    linarith [h.2]
  have hc : (0:ℤ) ≤ ⌈(ly - (cy - lineSpacing * 0.4)) / lineSpacing⌉ := Int.ceil_nonneg ht
  have hstep : (ly - lineSpacing - (cy - lineSpacing * 0.4)) / lineSpacing
      = (ly - (cy - lineSpacing * 0.4)) / lineSpacing - 1 := by
    field_simp
    ring
  rw [hstep, Int.ceil_sub_one]
  omega

/-- The descending while loop emitting ledger-line y positions below the
staff (drawLedgerLines). -/
def belowFrom (cy lineSpacing ly : ℚ) : List ℚ :=
  if h : 0 < lineSpacing ∧ ly ≤ cy + lineSpacing * 0.4 then
    ly :: belowFrom cy lineSpacing (ly + lineSpacing)
  else []
termination_by (⌈((cy + lineSpacing * 0.4) - ly) / lineSpacing⌉ + 1).toNat
decreasing_by
  have hL := h.1
  have ht : (0:ℚ) ≤ ((cy + lineSpacing * 0.4) - ly) / lineSpacing := by
    apply div_nonneg _ (le_of_lt hL)
    linarith [h.2]
  have hc : (0:ℤ) ≤ ⌈((cy + lineSpacing * 0.4) - ly) / lineSpacing⌉ := Int.ceil_nonneg ht
  have hstep : ((cy + lineSpacing * 0.4) - (ly + lineSpacing)) / lineSpacing
      = ((cy + lineSpacing * 0.4) - ly) / lineSpacing - 1 := by
    field_simp
    ring
  rw [hstep, Int.ceil_sub_one]
  omega

/-- Y positions of the ledger lines drawn for a note head center cy
against the staff band from staffTop to staffBottom, with the full
ledger interval lineSpacing (drawLedgerLines): a guarded loop above the
staff starting one interval above the top, then a guarded loop below
starting one interval below the bottom. -/
def drawLedgerLines (cy staffTop staffBottom lineSpacing : ℚ) : List ℚ :=
  (if cy < staffTop - lineSpacing * 0.4 then
    aboveFrom cy lineSpacing (staffTop - lineSpacing)
  else []) ++
  (if staffBottom + lineSpacing * 0.4 < cy then
    belowFrom cy lineSpacing (staffBottom + lineSpacing)
  else [])

/-- Squared distance, in raw pre-calibration canvas space, between the
inverse-calibrated query point and a note position (findNoteAt). -/
def dist2 (px py canvasW canvasH : ℚ) (calibration : CalibrationState)
    (note : NoteData) : ℚ :=
  let sx := canvasW / PAGE_W
  let sy := canvasH / PAGE_H
  let rawPx := inverseCalib px calibration.scaleX calibration.offsetX
  let rawPy := inverseCalib py calibration.scaleY calibration.offsetY
  let dx := note.absX * sx - rawPx
  let dy := note.absY * sy - rawPy
  dx * dx + dy * dy

/-- The accumulator loop of the hit-tester: scan the notes, skip rests,
and keep the strictly closest note seen so far, starting from no match
and the squared radius (findNoteAt). -/
def findLoop (f : NoteData → ℚ) : List NoteData → Option NoteData → ℚ → Option NoteData
  | [], best, _ => best
  | note :: rest, best, bestDist =>
    if note.isRest then findLoop f rest best bestDist
    else if f note < bestDist then findLoop f rest (some note) (f note)
    else findLoop f rest best bestDist

/-- Hit-test entry point: inverse-calibrate the query point and return
the closest non-rest note strictly within the radius, if any
(findNoteAt; the source default radius is 18 canvas pixels). -/
def findNoteAt (notes : List NoteData) (px py canvasW canvasH : ℚ)
    (calibration : CalibrationState) (radius : ℚ) : Option NoteData :=
  findLoop (dist2 px py canvasW canvasH calibration) notes Option.none (radius * radius)

/-- Specification-side first minimum: the first element of the list
whose value under f is less than or equal to the value of every element,
so that on ties the earliest element in iteration order wins. -/
def firstMinBy (f : NoteData → ℚ) (l : List NoteData) : Option NoteData :=
  l.find? fun n => l.all fun m => decide (f n ≤ f m)

/-- Specification-side hit-tester, following the spec text: consider
every non-rest note whose raw-space squared distance to the
inverse-calibrated query point is within the squared radius, and return
the first one of minimum distance. -/
def findNoteAtSpec (notes : List NoteData) (px py canvasW canvasH : ℚ)
    (calibration : CalibrationState) (radius : ℚ) : Option NoteData :=
  let f := dist2 px py canvasW canvasH calibration
  firstMinBy f (notes.filter fun n => !n.isRest && decide (f n < radius * radius))

/-- A concrete note used by witness instantiations. -/
def witnessNote : NoteData :=
  { id := ("w1"), step := ("C"), octave := 4, alter := 0,
    noteType := NoteType.quarter, absX := 150, absY := 440,
    stemDir := StemDir.up, confidence := 0.9, partIndex := 0,
    measureNum := ("1"), measureIndex := 0, systemIndex := 0,
    isRest := false, status := NoteStatus.unreviewed }

end Canvas

namespace ScoreParser

/-- Page width in tenths (scoreParser constant). -/
def PAGE_W : ℕ := 1365

/-- Page height in tenths (scoreParser constant). -/
def PAGE_H : ℕ := 1922

/-- Left page margin in tenths (scoreParser constant). -/
def LEFT_MARGIN : ℕ := 130

/-- Top page margin in tenths (scoreParser constant). -/
def TOP_MARGIN : ℕ := 97

/-- Staff height in tenths (scoreParser constant). -/
def STAFF_H : ℕ := 40

/-- Staff top-Y positions in tenths for each system and part
(scoreParser constant). -/
def STAFF_TOPS : List (List ℕ) := [[333, 445, 556], [785, 897, 1008]]

/-- Widths of the eight measures in tenths (scoreParser constant). -/
def MEASURE_WIDTHS : List ℕ := [292, 226, 295, 293, 378, 306, 340, 83]

/-- System of a measure index: measures 0-3 are system 0, the rest
system 1 (scoreParser). -/
def SYS_OF_MEASURE (i : ℕ) : ℕ := if i < 4 then 0 else 1

/-- Start x of a measure in tenths: the left margin plus the widths of
the measures from the start of the measure's own system up to the
measure (scoreParser measureStartX; the slice from sysStart to
measureIdx is the drop-then-take below). -/
def measureStartX (measureIdx : ℕ) : ℕ :=
  let sysStart := if measureIdx < 4 then 0 else 4
  LEFT_MARGIN + ((MEASURE_WIDTHS.drop sysStart).take (measureIdx - sysStart)).sum

/-- Specification-side start x of a measure: the left margin plus the
sum of the widths of the preceding measures lying in the same system as
the measure. -/
def specMeasureStartX (i : ℕ) : ℕ :=
  LEFT_MARGIN +
    (((List.range i).filter fun j => decide (SYS_OF_MEASURE j = SYS_OF_MEASURE i)).map
      fun j => MEASURE_WIDTHS.getD j 0).sum

/-- Diatonic step table: C through B give 0 through 6, any other string
has no entry (scoreParser STEP_NUM record). -/
def STEP_NUM (step : String) : Option ℤ :=
  ([(("C" : String), (0 : ℤ)), (("D" : String), 1), (("E" : String), 2),
    (("F" : String), 3), (("G" : String), 4), (("A" : String), 5),
    (("B" : String), 6)]).lookup step

/-- Y offset in tenths, positive meaning down, of the note-head center
relative to the staff top line: part index 2 uses the bass-clef line,
all other parts the octave-transposed treble line (scoreParser
pitchToYOffset).  The result is none when the step has no table entry,
modelling the NaN the source arithmetic would produce. -/
def pitchToYOffset (step : String) (octave : ℤ) (partIndex : ℕ) : Option ℤ :=
  (STEP_NUM step).map fun stepVal =>
    let p := octave * 7 + stepVal
    if partIndex = 2 then 130 - 5 * p else 155 - 5 * p

/-- Deterministic mock confidence in the unit interval segment from 0.52
to 1: a hash-like function of the seed built from the part, measure and
note indices (scoreParser mockConfidence). -/
noncomputable def mockConfidence (partIdx measureIdx noteIdx : ℤ) : ℝ :=
  let seed : ℤ := partIdx * 1000 + measureIdx * 100 + noteIdx
  let x : ℝ := Real.sin ((seed : ℝ) * 127.1 + 311.7) * 43758.5453123
  let r : ℝ := x - ⌊x⌋
  0.52 + 0.48 * r ^ (0.55 : ℝ)

/-- Upper-case a string character by character, modelling the source's
toUpperCase call on ASCII content. -/
def strUpper (s : String) : String := ⟨s.data.map Char.toUpper⟩

/-- Lower-case a string character by character, modelling the source's
toLowerCase call on ASCII content. -/
def strLower (s : String) : String := ⟨s.data.map Char.toLower⟩

/-- Decimal digit characters of a natural number, most significant
first, via fuelled division; the wrapper below supplies enough fuel. -/
def natCharsCore (fuel n : ℕ) : List Char :=
  match fuel with
  | 0 => []
  | fuel + 1 =>
    if n < 10 then [Nat.digitChar n]
    else natCharsCore fuel (n / 10) ++ [Nat.digitChar (n % 10)]

/-- Decimal digit characters of a natural number, most significant
first. -/
def natChars (n : ℕ) : List Char := natCharsCore (n + 1) n

/-- Decimal rendering of a natural number, as the source's string
interpolation of a number produces. -/
def natString (n : ℕ) : String := ⟨natChars n⟩

/-- The stable note identity string built from the part index, the
measure number string and the note index within the measure, following
the source template p-m-n form. -/
def noteId (partIdx : ℕ) (mNum : String) (noteIdx : ℕ) : String :=
  ("p") ++ natString partIdx ++ ("-m") ++ mNum ++ ("-n") ++ natString noteIdx

/-- A field of the raw document that holds either a single value or an
array of values, as the XML-to-JSON conversion produces. -/
inductive OneOrMany (α : Type) where
  | one : α → OneOrMany α
  | many : List α → OneOrMany α

/-- Normalize an optional single-or-array field to a list: a missing
field becomes the empty list, a single value a one-element list
(scoreParser toArray). -/
def toArray {α : Type} : Option (OneOrMany α) → List α
  | Option.none => []
  | Option.some (OneOrMany.one a) => [a]
  | Option.some (OneOrMany.many l) => l

/-- Raw pitch element: every field optional (scoreParser RawPitch; the
numeric strings of the document are modelled as numbers). -/
structure RawPitch where
  step : Option String
  octave : Option ℤ
  alter : Option ℤ

/-- Raw stem element carrying its text content (scoreParser RawStem). -/
structure RawStem where
  text : Option String

/-- Raw note element: optional pitch, rest marker presence, optional
duration type, stem hint and intra-measure x (scoreParser RawNote). -/
structure RawNote where
  pitch : Option RawPitch
  rest : Bool
  type : Option String
  stem : Option RawStem
  defaultX : Option ℚ

/-- Raw clef element (scoreParser RawAttributes). -/
structure RawClef where
  sign : Option String
  line : Option ℤ
  octaveChange : Option ℤ

/-- Raw key element (scoreParser RawAttributes). -/
structure RawKey where
  fifths : Option ℤ
  mode : Option String

/-- Raw time element; senzaMisura records the presence of the
senza-misura key (scoreParser RawAttributes). -/
structure RawTime where
  beats : Option ℤ
  beatType : Option ℤ
  senzaMisura : Bool

/-- Raw attributes block (scoreParser RawAttributes). -/
structure RawAttributes where
  clef : Option RawClef
  key : Option RawKey
  time : Option RawTime

/-- Raw measure: an optional note entry that may be a single note, an
array, or contain null entries, optional attributes and an optional
number label (scoreParser RawMeasure). -/
structure RawMeasure where
  note : Option (OneOrMany (Option RawNote))
  attributes : Option RawAttributes
  num : Option String

/-- Raw part holding its measures (scoreParser RawPart). -/
structure RawPart where
  measure : Option (OneOrMany RawMeasure)

/-- Raw part-name entry: either a plain string or an object with an
optional text field (scoreParser name resolution). -/
inductive RawPartName where
  | str : String → RawPartName
  | obj : Option String → RawPartName

/-- Raw score-part metadata entry (scoreParser RawScorePart). -/
structure RawScorePart where
  partName : Option RawPartName
  instrumentName : Option String
  id : Option String

/-- Raw part-list block (scoreParser RawScore). -/
structure RawPartList where
  scorePart : Option (OneOrMany RawScorePart)

/-- Contents of the score-partwise wrapper (scoreParser RawScore). -/
structure RawPartwise where
  part : Option (OneOrMany RawPart)
  partList : Option RawPartList

/-- Raw top-level document: the optional score-partwise wrapper
(scoreParser RawScore). -/
structure RawScore where
  scorePartwise : Option RawPartwise

/-- Clef metadata (types module ClefInfo). -/
structure ClefInfo where
  sign : String
  line : ℤ
  octaveChange : ℤ
deriving DecidableEq, Repr

/-- Key metadata (types module KeyInfo). -/
structure KeyInfo where
  fifths : ℤ
  mode : String
deriving DecidableEq, Repr

/-- Time metadata (types module TimeInfo). -/
structure TimeInfo where
  beats : Option ℤ
  beatType : Option ℤ
  senzaMisura : Bool
deriving DecidableEq, Repr

/-- Per-part metadata (types module PartInfo). -/
structure PartInfo where
  id : String
  name : String
  clef : ClefInfo
  key : KeyInfo
  time : TimeInfo
deriving DecidableEq, Repr

/-- Page dimensions of the parsed layout (types module ScoreLayout). -/
structure ScoreLayout where
  pageWidth : ℕ
  pageHeight : ℕ
deriving DecidableEq, Repr

/-- Note record produced by the parser (types module NoteData).  The
absY field is none exactly when the source arithmetic would produce NaN:
an unknown step after defaulting and upper-casing, or a part index with
no staff-top entry. -/
structure ParsedNote where
  id : String
  step : String
  octave : ℤ
  alter : ℤ
  noteType : NoteType
  absX : ℚ
  absY : Option ℚ
  stemDir : StemDir
  confidence : ℝ
  partIndex : ℕ
  measureNum : String
  measureIndex : ℕ
  systemIndex : ℕ
  isRest : Bool
  status : NoteStatus

/-- Result of a successful parse (scoreParser ParseResult). -/
structure ParseResult where
  notes : List ParsedNote
  layout : ScoreLayout
  parts : List PartInfo

/-- Clef of an optional raw clef element, with the G-clef-line-2
defaults (scoreParser parseClef). -/
def parseClef : Option RawClef → ClefInfo
  | Option.none => { sign := ("G"), line := 2, octaveChange := 0 }
  | Option.some c =>
    { sign := strUpper (c.sign.getD ("G"))
      line := c.line.getD 2
      octaveChange := c.octaveChange.getD 0 }

/-- Key of an optional raw key element, with the zero-fifths major
defaults (scoreParser parseKey). -/
def parseKey : Option RawKey → KeyInfo
  | Option.none => { fifths := 0, mode := ("major") }
  | Option.some k => { fifths := k.fifths.getD 0, mode := k.mode.getD ("major") }

/-- Time of an optional raw time element, with the 4-4 defaults
(scoreParser parseTime). -/
def parseTime : Option RawTime → TimeInfo
  | Option.none => { beats := Option.some 4, beatType := Option.some 4, senzaMisura := false }
  | Option.some t =>
    { beats := t.beats, beatType := t.beatType, senzaMisura := t.senzaMisura }

/-- The seven duration names the source duration table recognizes. -/
def KNOWN_DURATIONS : List String :=
  [("whole"), ("half"), ("quarter"), ("eighth"), ("16th"), ("32nd"), ("64th")]

/-- Normalize a duration name: a recognized name maps to its class, any
other string falls back to quarter (scoreParser normaliseNoteType). -/
def normaliseNoteType (raw : String) : NoteType :=
  if raw = ("whole") then NoteType.whole
  else if raw = ("half") then NoteType.half
  else if raw = ("quarter") then NoteType.quarter
  else if raw = ("eighth") then NoteType.eighth
  else if raw = ("16th") then NoteType.sixteenth
  else if raw = ("32nd") then NoteType.thirtySecond
  else if raw = ("64th") then NoteType.sixtyFourth
  else NoteType.quarter

/-- The label of a measure: its number attribute, defaulting to the
one-based measure index rendered in decimal (parseScore). -/
def resolveMNum (measure : RawMeasure) (measureIdx : ℕ) : String :=
  measure.num.getD (natString (measureIdx + 1))

/-- Build one parsed note from a raw note-array entry: a null entry and
a rest are skipped, a non-rest note without a pitch is dropped, and all
remaining fields resolve with their documented defaults (the note body
of parseScore).  staffTop is none when the part index has no staff-top
entry. -/
noncomputable def buildNote (partIdx measureIdx : ℕ) (mNum : String) (mStartX : ℕ)
    (staffTop : Option ℕ) (noteIdx : ℕ) : Option RawNote → Option ParsedNote
  | Option.none => Option.none
  | Option.some rawNote =>
    if rawNote.rest then Option.none
    else
      match rawNote.pitch with
      | Option.none => Option.none
      | Option.some pitch =>
        let step := strUpper (pitch.step.getD ("C"))
        let octave := pitch.octave.getD 4
        let alter := pitch.alter.getD 0
        let noteType := normaliseNoteType (rawNote.type.getD ("quarter"))
        let noteX := rawNote.defaultX.getD 0
        let stemText := strLower ((rawNote.stem.bind RawStem.text).getD (""))
        let stemDir : StemDir :=
          if noteType = NoteType.whole then StemDir.none
          else if stemText = ("up") then StemDir.up
          else if stemText = ("down") then StemDir.down
          else StemDir.none
        let yOffset := pitchToYOffset step octave partIdx
        Option.some
          { id := noteId partIdx mNum noteIdx
            step := step
            octave := octave
            alter := alter
            noteType := noteType
            absX := (mStartX : ℚ) + noteX
            absY :=
              match staffTop, yOffset with
              | Option.some st, Option.some yo => Option.some ((st : ℚ) + (yo : ℚ))
              | _, _ => Option.none
            stemDir := stemDir
            confidence := mockConfidence (partIdx : ℤ) (measureIdx : ℤ) (noteIdx : ℤ)
            partIndex := partIdx
            measureNum := mNum
            measureIndex := measureIdx
            systemIndex := SYS_OF_MEASURE measureIdx
            isRest := false
            status := NoteStatus.unreviewed }

/-- The per-measure note loop: walk the raw note entries with their
indices, keeping the notes the builder accepts (the inner forEach of
parseScore). -/
noncomputable def measureNotesAux (partIdx measureIdx : ℕ) (mNum : String)
    (mStartX : ℕ) (staffTop : Option ℕ) : ℕ → List (Option RawNote) → List ParsedNote
  | _, [] => []
  | noteIdx, rawNote :: rest =>
    match buildNote partIdx measureIdx mNum mStartX staffTop noteIdx rawNote with
    | Option.some n =>
      n :: measureNotesAux partIdx measureIdx mNum mStartX staffTop (noteIdx + 1) rest
    | Option.none => measureNotesAux partIdx measureIdx mNum mStartX staffTop (noteIdx + 1) rest

/-- Notes of one measure: resolve the measure label, start x and staff
top, then walk the note entries (the measure body of parseScore). -/
noncomputable def measureNotes (partIdx measureIdx : ℕ) (measure : RawMeasure) :
    List ParsedNote :=
  let mNum := resolveMNum measure measureIdx
  let mStartX := measureStartX measureIdx
  let sysIdx := SYS_OF_MEASURE measureIdx
  let staffTop := (STAFF_TOPS.get? sysIdx).bind fun row => row.get? partIdx
  measureNotesAux partIdx measureIdx mNum mStartX staffTop 0 (toArray measure.note)

/-- The per-part measure loop of parseScore, carrying the global measure
index. -/
noncomputable def partNotesAux (partIdx : ℕ) : ℕ → List RawMeasure → List ParsedNote
  | _, [] => []
  | measureIdx, m :: rest =>
    measureNotes partIdx measureIdx m ++ partNotesAux partIdx (measureIdx + 1) rest

/-- Notes of one part (parseScore). -/
noncomputable def partNotes (partIdx : ℕ) (part : RawPart) : List ParsedNote :=
  partNotesAux partIdx 0 (toArray part.measure)

/-- The outer part loop of parseScore, carrying the part index. -/
noncomputable def allNotesAux : ℕ → List RawPart → List ParsedNote
  | _, [] => []
  | partIdx, p :: rest => partNotes partIdx p ++ allNotesAux (partIdx + 1) rest

/-- The measure labels a part resolves for its measures, in order
(the labels parseScore derives while walking a part). -/
def resolvedMNumsAux : ℕ → List RawMeasure → List String
  | _, [] => []
  | measureIdx, m :: rest => resolveMNum m measureIdx :: resolvedMNumsAux (measureIdx + 1) rest

/-- The measure labels of a part, starting from measure index 0. -/
def resolvedMNums (part : RawPart) : List String :=
  resolvedMNumsAux 0 (toArray part.measure)

/-- Resolve a part display name: a plain string is used as is, an object
name uses its text, and otherwise the instrument name or a numbered
default applies (parseScore). -/
def resolvePartName (rawSP : Option RawScorePart) (partIdx : ℕ) : String :=
  match rawSP.bind RawScorePart.partName with
  | Option.some (RawPartName.str s) => s
  | Option.some (RawPartName.obj (Option.some s)) => s
  | Option.some (RawPartName.obj Option.none) =>
    (rawSP.bind RawScorePart.instrumentName).getD (("Part ") ++ natString (partIdx + 1))
  | Option.none =>
    (rawSP.bind RawScorePart.instrumentName).getD (("Part ") ++ natString (partIdx + 1))

/-- Per-part metadata from the part's first measure's attribute block
and the part-list entry (parseScore). -/
def buildPartInfo (rawScoreParts : List RawScorePart) (partIdx : ℕ) (part : RawPart) :
    PartInfo :=
  let measures := toArray part.measure
  let firstAttrs := measures.head?.bind RawMeasure.attributes
  let rawSP := rawScoreParts.get? partIdx
  { id := (rawSP.bind RawScorePart.id).getD (("P") ++ natString (partIdx + 1))
    name := resolvePartName rawSP partIdx
    clef := parseClef (firstAttrs.bind RawAttributes.clef)
    key := parseKey (firstAttrs.bind RawAttributes.key)
    time := parseTime (firstAttrs.bind RawAttributes.time) }

/-- The part-metadata loop of parseScore. -/
def partInfosAux (rawScoreParts : List RawScorePart) : ℕ → List RawPart → List PartInfo
  | _, [] => []
  | partIdx, p :: rest =>
    buildPartInfo rawScoreParts partIdx p :: partInfosAux rawScoreParts (partIdx + 1) rest

/-- Parse a raw document: fail exactly when the score-partwise wrapper
is missing, otherwise walk parts, measures and notes accumulating the
flat note list, the fixed layout, and per-part metadata (parseScore). -/
noncomputable def parseScore (json : RawScore) : Except String ParseResult :=
  match json.scorePartwise with
  | Option.none => Except.error ("Not a score-partwise JSON")
  | Option.some partwise =>
    let rawParts := toArray partwise.part
    let rawScoreParts := toArray (partwise.partList.bind RawPartList.scorePart)
    Except.ok
      { notes := allNotesAux 0 rawParts
        layout := { pageWidth := PAGE_W, pageHeight := PAGE_H }
        parts := partInfosAux rawScoreParts 0 rawParts }

/-- Whether an Except value is a success. -/
def exceptOk {ε α : Type} : Except ε α → Bool
  | Except.ok _ => true
  | Except.error _ => false

/-- Decimal value of a digit-character list, the inverse of the decimal
rendering used to prove the rendering injective. -/
def charListVal (l : List Char) : ℕ :=
  l.foldl (fun a c => a * 10 + (c.toNat - 48)) 0

/-- The note ids of a successful parse, the empty list on failure. -/
def okIds : Except String ParseResult → List String
  | Except.ok r => r.notes.map ParsedNote.id
  | Except.error _ => []

/-- A concrete pitched quarter note, used by concrete documents. -/
def cNote : RawNote :=
  { pitch := Option.some
      { step := Option.some ("C"), octave := Option.some 4, alter := Option.some 0 }
    rest := false
    type := Option.some ("quarter")
    stem := Option.none
    defaultX := Option.some 0 }

/-- A measure labelled 1 holding one pitched note. -/
def measureOne : RawMeasure :=
  { note := Option.some (OneOrMany.one (Option.some cNote))
    attributes := Option.none
    num := Option.some ("1") }

/-- A measure labelled 2 holding one pitched note. -/
def measureTwo : RawMeasure :=
  { note := Option.some (OneOrMany.one (Option.some cNote))
    attributes := Option.none
    num := Option.some ("2") }

/-- A document whose single part holds two measures both labelled 1. -/
def dupLabelDoc : RawScore :=
  { scorePartwise := Option.some
      { part := Option.some (OneOrMany.one
          { measure := Option.some (OneOrMany.many [measureOne, measureOne]) })
        partList := Option.none } }

/-- Wrapper contents whose single part holds measures labelled 1 and
2. -/
def distinctLabelPartwise : RawPartwise :=
  { part := Option.some (OneOrMany.one
      { measure := Option.some (OneOrMany.many [measureOne, measureTwo]) })
    partList := Option.none }

/-- A document whose single part holds measures labelled 1 and 2. -/
def distinctLabelDoc : RawScore :=
  { scorePartwise := Option.some distinctLabelPartwise }

end ScoreParser



end Harmonia

namespace Harmonia

namespace Canvas

/-- C1: for every point and every per-axis calibration with nonzero
scale, inverse-calibrating the forward-calibrated coordinate returns the
original coordinate exactly (the rational model has no rounding, hence
the floating-point tolerance of the claim is met with tolerance zero). -/
theorem calib_round_trip (raw scale offset : ℚ) (h : scale ≠ 0) :
    inverseCalib (applyCalib raw scale offset) scale offset = raw := by
  unfold inverseCalib applyCalib
  field_simp

/-- Witness for C1 at raw 5, scale 2, offset 3. -/
theorem calib_round_trip_witness :
    (2:ℚ) ≠ 0 ∧ inverseCalib (applyCalib 5 2 3) 2 3 = 5 :=
  ⟨by norm_num, calib_round_trip 5 2 3 (by norm_num)⟩

/-- Unfolding of find? at a head satisfying the predicate, with the
predicate explicit. -/
theorem findConsPos {α : Type} (p : α → Bool) (a : α) (l : List α) (h : p a = true) :
    (a :: l).find? p = some a := by
  simp [List.find?_cons, h]

/-- Unfolding of find? at a head failing the predicate, with the
predicate explicit. -/
theorem findConsNeg {α : Type} (p : α → Bool) (a : α) (l : List α) (h : p a = false) :
    (a :: l).find? p = l.find? p := by
  simp [List.find?_cons, h]

/-- Two pointwise-equal predicates find the same first element. -/
theorem findCongrAux {α : Type} (p q : α → Bool) :
    ∀ l : List α, (∀ x ∈ l, p x = q x) → l.find? p = l.find? q := by
  intro l
  induction l with
  | nil => intro _; rfl
  | cons a t ih =>
    intro hpq
    have ha := hpq a (List.mem_cons_self a t)
    cases hq : q a with
    | true =>
      rw [List.find?_cons_of_pos _ (ha.trans hq), List.find?_cons_of_pos _ hq]
    | false =>
      rw [List.find?_cons_of_neg _ (by simp [ha, hq]),
        List.find?_cons_of_neg _ (by simp [hq])]
      exact ih fun x hx => hpq x (List.mem_cons_of_mem a hx)

/-- Elements rejected by the filter that can never satisfy the search
predicate do not change the first element found. -/
theorem findFilterAux {α : Type} (p q : α → Bool) :
    ∀ l : List α, (∀ x ∈ l, q x = false → p x = false) →
      l.find? p = (l.filter q).find? p := by
  intro l
  induction l with
  | nil => intro _; rfl
  | cons a t ih =>
    intro hpq
    have iht := ih fun x hx => hpq x (List.mem_cons_of_mem a hx)
    cases hq : q a with
    | true =>
      rw [List.filter_cons_of_pos hq]
      cases hp : p a with
      | true => rw [List.find?_cons_of_pos _ hp, List.find?_cons_of_pos _ hp]
      | false =>
        rw [List.find?_cons_of_neg _ (by simp [hp]),
          List.find?_cons_of_neg _ (by simp [hp])]
        exact iht
    | false =>
      have hp := hpq a (List.mem_cons_self a t) hq
      rw [List.filter_cons_of_neg (by simp [hq]), List.find?_cons_of_neg _ (by simp [hp])]
      exact iht

/-- Dropping the elements at squared distance at least B from a list
does not change the everywhere-below test of an element already known to
be strictly below B. -/
theorem allFilterLt (f : NoteData → ℚ) (B : ℚ) (x : NoteData) (hx : f x < B) :
    ∀ M : List NoteData, (M.all fun m => decide (f x ≤ f m))
      = ((M.filter fun m => decide (f m < B)).all fun m => decide (f x ≤ f m)) := by
  intro M
  induction M with
  | nil => rfl
  | cons m t ih =>
    by_cases hm : f m < B
    · rw [List.filter_cons_of_pos (by simp [hm]), List.all_cons, List.all_cons, ih]
    · have hxm : f x ≤ f m := le_of_lt (lt_of_lt_of_le hx (le_of_not_lt hm))
      rw [List.filter_cons_of_neg (by simp [hm]), List.all_cons]
      simp only [decide_eq_true hxm, Bool.true_and]
      exact ih

/-- Restricting a list to the elements strictly below B does not change
its first minimum, provided some element is strictly below B. -/
theorem minFilterAux (f : NoteData → ℚ) (B : ℚ) (x : NoteData) :
    ∀ l : List NoteData, x ∈ l → f x < B →
      firstMinBy f l = firstMinBy f (l.filter fun m => decide (f m < B)) := by
  intro l hx hfx
  unfold firstMinBy
  have step1 : (l.find? fun n => l.all fun m => decide (f n ≤ f m))
      = ((l.filter fun m => decide (f m < B)).find?
          fun n => l.all fun m => decide (f n ≤ f m)) := by
    apply findFilterAux
    intro y _ hqy
    have hBy : B ≤ f y := by
      by_contra hcon
      push_neg at hcon
      simp [hcon] at hqy
    cases hall : l.all fun m => decide (f y ≤ f m) with
    | false => rfl
    | true =>
      exfalso
      rw [List.all_eq_true] at hall
      have h2 := hall x hx
      simp only [decide_eq_true_eq] at h2
      linarith
  rw [step1]
  apply findCongrAux
  intro y hy
  have hyB : f y < B := by
    have := List.of_mem_filter hy
    simpa using this
  exact allFilterLt f B y hyB l

/-- A head element strictly beaten by a later element never wins: it can
be dropped from the front of the list. -/
theorem firstMinSkipHead (f : NoteData → ℚ) (c n : NoteData) (M : List NoteData)
    (h : f n < f c) : firstMinBy f (c :: n :: M) = firstMinBy f (n :: M) := by
  unfold firstMinBy
  have hpc : ((c :: n :: M).all fun m => decide (f c ≤ f m)) = false := by
    cases hall : (c :: n :: M).all fun m => decide (f c ≤ f m) with
    | false => rfl
    | true =>
      exfalso
      rw [List.all_eq_true] at hall
      have h2 := hall n (List.mem_cons_of_mem c (List.mem_cons_self n M))
      simp only [decide_eq_true_eq] at h2
      linarith
  rw [List.find?_cons_of_neg _ (by simp [hpc])]
  apply findCongrAux
  intro x _
  simp only [List.all_cons]
  by_cases h1 : f x ≤ f n
  · have h2 : f x ≤ f c := le_of_lt (lt_of_le_of_lt h1 h)
    simp [h1, h2]
  · simp [h1]

/-- An element no better than the current head never wins: it can be
dropped from the second position of the list. -/
theorem firstMinDropSecond (f : NoteData → ℚ) (c n : NoteData) (M : List NoteData)
    (h : f c ≤ f n) : firstMinBy f (c :: n :: M) = firstMinBy f (c :: M) := by
  unfold firstMinBy
  have hc : ((c :: n :: M).all fun m => decide (f c ≤ f m))
      = ((c :: M).all fun m => decide (f c ≤ f m)) := by
    simp only [List.all_cons]
    simp [le_refl, h]
  cases hpc : (c :: M).all fun m => decide (f c ≤ f m) with
  | true =>
    rw [findConsPos (fun x => (c :: n :: M).all fun m => decide (f x ≤ f m)) c _
        (by show ((c :: n :: M).all fun m => decide (f c ≤ f m)) = true
            rw [hc]; exact hpc),
      findConsPos (fun x => (c :: M).all fun m => decide (f x ≤ f m)) c _ hpc]
  | false =>
    rw [findConsNeg (fun x => (c :: n :: M).all fun m => decide (f x ≤ f m)) c _
        (by show ((c :: n :: M).all fun m => decide (f c ≤ f m)) = false
            rw [hc]; exact hpc),
      findConsNeg (fun x => (c :: M).all fun m => decide (f x ≤ f m)) c _ hpc]
    have hn : ((c :: n :: M).all fun m => decide (f n ≤ f m)) = false := by
      by_cases hnc : f n ≤ f c
      · have heq : f n = f c := le_antisymm hnc h
        cases hall : (c :: n :: M).all fun m => decide (f n ≤ f m) with
        | false => rfl
        | true =>
          exfalso
          rw [List.all_eq_true] at hall
          have hsm : ((c :: M).all fun m => decide (f c ≤ f m)) = true := by
            rw [List.all_eq_true]
            intro x hxm
            have hx' : x ∈ c :: n :: M := by
              rcases List.mem_cons.mp hxm with h1 | h2
              · exact h1 ▸ List.mem_cons_self _ _
              · exact List.mem_cons_of_mem _ (List.mem_cons_of_mem _ h2)
            have h3 := hall x hx'
            simp only [decide_eq_true_eq] at h3 ⊢
            linarith
          rw [hsm] at hpc
          cases hpc
      · cases hall : (c :: n :: M).all fun m => decide (f n ≤ f m) with
        | false => rfl
        | true =>
          exfalso
          rw [List.all_eq_true] at hall
          have h3 := hall c (List.mem_cons_self c (n :: M))
          simp only [decide_eq_true_eq] at h3
          exact hnc h3
    rw [findConsNeg (fun x => (c :: n :: M).all fun m => decide (f x ≤ f m)) n _ hn]
    apply findCongrAux
    intro x _
    simp only [List.all_cons]
    by_cases h1 : f x ≤ f c
    · have h2 : f x ≤ f n := le_trans h1 h
      simp [h1, h2]
    · simp [h1]

/-- The hit-test loop running with a current champion computes the first
minimum of the champion followed by the remaining non-rest notes. -/
theorem findLoopSome (f : NoteData → ℚ) :
    ∀ (l : List NoteData) (c : NoteData),
      findLoop f l (some c) (f c) = firstMinBy f (c :: l.filter fun n => !n.isRest) := by
  intro l
  induction l with
  | nil =>
    intro c
    simp [findLoop, firstMinBy]
  | cons n t ih =>
    intro c
    by_cases hr : n.isRest
    · simp only [findLoop]
      rw [if_pos hr, ih c, List.filter_cons_of_neg (by simp [hr])]
    · by_cases hlt : f n < f c
      · simp only [findLoop]
        rw [if_neg (by simp [hr]), if_pos hlt, ih n,
          List.filter_cons_of_pos (by simp [hr])]
        exact (firstMinSkipHead f c n _ hlt).symm
      · simp only [findLoop]
        rw [if_neg (by simp [hr]), if_neg hlt, ih c,
          List.filter_cons_of_pos (by simp [hr])]
        exact (firstMinDropSecond f c n _ (le_of_not_lt hlt)).symm

/-- The hit-test loop started with no champion and threshold B computes
the first minimum of the non-rest notes strictly within B. -/
theorem findLoopNone (f : NoteData → ℚ) (B : ℚ) :
    ∀ l : List NoteData,
      findLoop f l Option.none B
        = firstMinBy f (l.filter fun n => !n.isRest && decide (f n < B)) := by
  intro l
  induction l with
  | nil => rfl
  | cons n t ih =>
    by_cases hr : n.isRest
    · simp only [findLoop]
      rw [if_pos hr, ih, List.filter_cons_of_neg (by simp [hr])]
    · by_cases hlt : f n < B
      · simp only [findLoop]
        rw [if_neg (by simp [hr]), if_pos hlt, findLoopSome f t n,
          List.filter_cons_of_pos (by simp [hr, hlt])]
        have hmem : n ∈ n :: (t.filter fun m => !m.isRest) := List.mem_cons_self _ _
        rw [minFilterAux f B n _ hmem hlt, List.filter_cons_of_pos (by simp [hlt])]
        congr 1
        rw [List.filter_filter]
        congr 1
        apply List.filter_congr
        intro x _
        exact Bool.and_comm _ _
      · simp only [findLoop]
        rw [if_neg (by simp [hr]), if_neg hlt, ih,
          List.filter_cons_of_neg (by simp [hlt])]

/-- C4: the hit-tester inverse-calibrates the query point, compares
raw-space squared Euclidean distances of all non-rest notes, and returns
the first note of minimum distance strictly within the radius, or none:
it coincides with the specification-side first-minimum-within-radius
function, so equal-distance ties go to the earlier note in document
order. -/
theorem findNoteAt_eq_spec (notes : List NoteData) (px py canvasW canvasH : ℚ)
    (calibration : CalibrationState) (radius : ℚ)
    (hsx : calibration.scaleX ≠ 0) (hsy : calibration.scaleY ≠ 0) :
    findNoteAt notes px py canvasW canvasH calibration radius
      = findNoteAtSpec notes px py canvasW canvasH calibration radius := by
  unfold findNoteAt findNoteAtSpec
  exact findLoopNone _ _ notes

/-- Witness for C4 with a single concrete note and the default
calibration. -/
theorem findNoteAt_eq_spec_witness :
    DEFAULT_CALIBRATION.scaleX ≠ 0 ∧ DEFAULT_CALIBRATION.scaleY ≠ 0 ∧
      findNoteAt [witnessNote] 150 440 1365 1922 DEFAULT_CALIBRATION 18
        = findNoteAtSpec [witnessNote] 150 440 1365 1922 DEFAULT_CALIBRATION 18 :=
  ⟨by norm_num [DEFAULT_CALIBRATION], by norm_num [DEFAULT_CALIBRATION],
    findNoteAt_eq_spec [witnessNote] 150 440 1365 1922 DEFAULT_CALIBRATION 18
      (by norm_num [DEFAULT_CALIBRATION]) (by norm_num [DEFAULT_CALIBRATION])⟩

/-- C5 counterexample: with the canvas at full page height, lowering
noteScale from 1 to 1/4 leaves the head radius at its 3.5 pixel floor
instead of scaling it to a quarter of 8.8 pixels, so head radii do not
change proportionally with noteScale. -/
theorem noteScale_proportional_counterexample :
    ¬ (headRx 1922 { DEFAULT_CALIBRATION with noteScale := 1/4 } * 1
        = headRx 1922 { DEFAULT_CALIBRATION with noteScale := 1 } * (1/4)) := by
  norm_num [headRx, staffPx, DEFAULT_CALIBRATION, STAFF_H_TENTHS, PAGE_H, max_def]

/-- C5 (amended): changing only noteScale never changes a note's canvas
head-center coordinates, and above the floor minimums (head rx at 3.5
px, ry at 2.5 px, stem length at 12 px) head radii and stem length scale
proportionally with noteScale. -/
theorem noteScale_position_invariant (note : NoteData) (canvasW canvasH : ℚ)
    (calibration : CalibrationState) (s t : ℚ) :
    (noteCx note canvasW { calibration with noteScale := s }
        = noteCx note canvasW { calibration with noteScale := t } ∧
      noteCy note canvasH { calibration with noteScale := s }
        = noteCy note canvasH { calibration with noteScale := t }) ∧
    ((3.5 ≤ staffPx canvasH { calibration with noteScale := s } * 0.22 ∧
        3.5 ≤ staffPx canvasH { calibration with noteScale := t } * 0.22) →
      headRx canvasH { calibration with noteScale := t } * s
        = headRx canvasH { calibration with noteScale := s } * t) ∧
    ((2.5 ≤ staffPx canvasH { calibration with noteScale := s } * 0.13 ∧
        2.5 ≤ staffPx canvasH { calibration with noteScale := t } * 0.13) →
      headRy canvasH { calibration with noteScale := t } * s
        = headRy canvasH { calibration with noteScale := s } * t) ∧
    ((12 ≤ staffPx canvasH { calibration with noteScale := s } * 0.88 ∧
        12 ≤ staffPx canvasH { calibration with noteScale := t } * 0.88) →
      stemLenPx canvasH { calibration with noteScale := t } * s
        = stemLenPx canvasH { calibration with noteScale := s } * t) := by
  refine ⟨⟨rfl, rfl⟩, ?_, ?_, ?_⟩
  · rintro ⟨h1, h2⟩
    unfold headRx
    rw [max_eq_right (le_trans (by norm_num) h1), max_eq_right (le_trans (by norm_num) h2)]
    unfold staffPx
    dsimp only
    ring
  · rintro ⟨h1, h2⟩
    unfold headRy
    rw [max_eq_right (le_trans (by norm_num) h1), max_eq_right (le_trans (by norm_num) h2)]
    unfold staffPx
    dsimp only
    ring
  · rintro ⟨h1, h2⟩
    unfold stemLenPx
    rw [max_eq_right (le_trans (by norm_num) h1), max_eq_right (le_trans (by norm_num) h2)]
    unfold staffPx
    dsimp only
    ring

/-- Witness for C5 (amended) at canvas 1365 by 1922, default calibration,
noteScale 1 against 2. -/
theorem noteScale_position_invariant_witness :
    (3.5 ≤ staffPx 1922 { DEFAULT_CALIBRATION with noteScale := 1 } * 0.22 ∧
      3.5 ≤ staffPx 1922 { DEFAULT_CALIBRATION with noteScale := 2 } * 0.22) ∧
    headRx 1922 { DEFAULT_CALIBRATION with noteScale := 2 } * 1
      = headRx 1922 { DEFAULT_CALIBRATION with noteScale := 1 } * 2 :=
  ⟨⟨by norm_num [staffPx, DEFAULT_CALIBRATION, STAFF_H_TENTHS, PAGE_H],
      by norm_num [staffPx, DEFAULT_CALIBRATION, STAFF_H_TENTHS, PAGE_H]⟩,
    (noteScale_position_invariant witnessNote 1365 1922 DEFAULT_CALIBRATION 1 2).2.1
      ⟨by norm_num [staffPx, DEFAULT_CALIBRATION, STAFF_H_TENTHS, PAGE_H],
        by norm_num [staffPx, DEFAULT_CALIBRATION, STAFF_H_TENTHS, PAGE_H]⟩⟩

/-- Every line emitted by the ascending above-staff loop is a whole
number of intervals above the starting line and within 0.4 interval of
the note center. -/
theorem aboveFrom_mem (cy lineSpacing : ℚ) : ∀ ly, ∀ y ∈ aboveFrom cy lineSpacing ly,
    (∃ k : ℕ, y = ly - k * lineSpacing) ∧ cy - lineSpacing * 0.4 ≤ y := by
  intro ly
  refine aboveFrom.induct cy lineSpacing
    (fun ly => ∀ y ∈ aboveFrom cy lineSpacing ly,
      (∃ k : ℕ, y = ly - k * lineSpacing) ∧ cy - lineSpacing * 0.4 ≤ y)
    ?_ ?_ ly
  · intro x h ih y hy
    rw [aboveFrom, dif_pos h] at hy
    rcases List.mem_cons.mp hy with rfl | hy2
    · exact ⟨⟨0, by push_cast; ring⟩, h.2⟩
    · obtain ⟨⟨k, hk⟩, hb⟩ := ih y hy2
      refine ⟨⟨k + 1, ?_⟩, hb⟩
      rw [hk]
      push_cast
      ring
  · intro x h y hy
    rw [aboveFrom, dif_neg h] at hy
    cases hy

/-- Every line emitted by the descending below-staff loop is a whole
number of intervals below the starting line and within 0.4 interval of
the note center. -/
theorem belowFrom_mem (cy lineSpacing : ℚ) : ∀ ly, ∀ y ∈ belowFrom cy lineSpacing ly,
    (∃ k : ℕ, y = ly + k * lineSpacing) ∧ y ≤ cy + lineSpacing * 0.4 := by
  intro ly
  refine belowFrom.induct cy lineSpacing
    (fun ly => ∀ y ∈ belowFrom cy lineSpacing ly,
      (∃ k : ℕ, y = ly + k * lineSpacing) ∧ y ≤ cy + lineSpacing * 0.4)
    ?_ ?_ ly
  · intro x h ih y hy
    rw [belowFrom, dif_pos h] at hy
    rcases List.mem_cons.mp hy with rfl | hy2
    · exact ⟨⟨0, by push_cast; ring⟩, h.2⟩
    · obtain ⟨⟨k, hk⟩, hb⟩ := ih y hy2
      refine ⟨⟨k + 1, ?_⟩, hb⟩
      rw [hk]
      push_cast
      ring
  · intro x h y hy
    rw [belowFrom, dif_neg h] at hy
    cases hy

/-- C6 counterexample: with staff top 100, staff bottom 140 and ledger
interval 10, a note center at 85, which is exactly 1.5 intervals above
the staff top, receives exactly one ledger line (at 90), not the two the
claim requires. -/
theorem ledger_count_counterexample :
    (85:ℚ) = 100 - 1.5 * 10 ∧
      drawLedgerLines 85 100 140 10 = [90] ∧
      (drawLedgerLines 85 100 140 10).length ≠ 2 := by
  have heval : drawLedgerLines 85 100 140 10 = [90] := by
    unfold drawLedgerLines
    rw [if_pos (by norm_num), if_neg (by norm_num)]
    rw [aboveFrom, dif_pos (by norm_num), aboveFrom, dif_neg (by norm_num)]
    norm_num
  refine ⟨by norm_num, heval, ?_⟩
  rw [heval]
  simp

/-- C6 (amended): with a positive ledger interval and a staff band, a
note center inside the staff gets no ledger lines; a note center exactly
1.5 intervals above the staff top gets exactly one ledger line, one
interval above the staff top; and every ledger line lies a whole number
of intervals beyond the nearer staff boundary, within 0.4 interval of
the note center, hence strictly outside the staff. -/
theorem ledger_lines_spec (cy staffTop staffBottom lineSpacing : ℚ)
    (hL : 0 < lineSpacing) (hband : staffTop ≤ staffBottom) :
    (staffTop ≤ cy → cy ≤ staffBottom →
      drawLedgerLines cy staffTop staffBottom lineSpacing = []) ∧
    (cy = staffTop - 1.5 * lineSpacing →
      drawLedgerLines cy staffTop staffBottom lineSpacing = [staffTop - lineSpacing]) ∧
    (∀ y ∈ drawLedgerLines cy staffTop staffBottom lineSpacing,
      ((∃ k : ℕ, y = staffTop - (k + 1) * lineSpacing) ∧ cy - lineSpacing * 0.4 ≤ y) ∨
      ((∃ k : ℕ, y = staffBottom + (k + 1) * lineSpacing) ∧ y ≤ cy + lineSpacing * 0.4)) ∧
    (∀ y ∈ drawLedgerLines cy staffTop staffBottom lineSpacing,
      y < staffTop ∨ staffBottom < y) := by
  have hmem : ∀ y ∈ drawLedgerLines cy staffTop staffBottom lineSpacing,
      ((∃ k : ℕ, y = staffTop - (k + 1) * lineSpacing) ∧ cy - lineSpacing * 0.4 ≤ y) ∨
      ((∃ k : ℕ, y = staffBottom + (k + 1) * lineSpacing) ∧ y ≤ cy + lineSpacing * 0.4) := by
    intro y hy
    unfold drawLedgerLines at hy
    rcases List.mem_append.mp hy with hy1 | hy2
    · left
      split at hy1
      · obtain ⟨⟨k, hk⟩, hb⟩ := aboveFrom_mem cy lineSpacing (staffTop - lineSpacing) y hy1
        refine ⟨⟨k, ?_⟩, hb⟩
        rw [hk]
        ring
      · cases hy1
    · right
      split at hy2
      · obtain ⟨⟨k, hk⟩, hb⟩ := belowFrom_mem cy lineSpacing (staffBottom + lineSpacing) y hy2
        refine ⟨⟨k, ?_⟩, hb⟩
        rw [hk]
        ring
      · cases hy2
  refine ⟨?_, ?_, hmem, ?_⟩
  · intro h1 h2
    unfold drawLedgerLines
    rw [if_neg (by linarith), if_neg (by linarith)]
    rfl
  · intro hcy
    subst hcy
    unfold drawLedgerLines
    rw [if_pos (by linarith), if_neg (by linarith)]
    rw [aboveFrom, dif_pos ⟨hL, by linarith⟩, aboveFrom,
      dif_neg (by rintro ⟨h1, h2⟩; linarith)]
    simp
  · intro y hy
    rcases hmem y hy with ⟨⟨k, hk⟩, _⟩ | ⟨⟨k, hk⟩, _⟩
    · left
      rw [hk]
      have hk0 : (0:ℚ) ≤ (k:ℚ) := Nat.cast_nonneg k
      nlinarith
    · right
      rw [hk]
      have hk0 : (0:ℚ) ≤ (k:ℚ) := Nat.cast_nonneg k
      nlinarith

/-- Witness for C6 (amended): staff band 100 to 140, interval 10, note
center 85, giving the single ledger line at 90. -/
theorem ledger_lines_spec_witness :
    (0:ℚ) < 10 ∧ (100:ℚ) ≤ 140 ∧ (85:ℚ) = 100 - 1.5 * 10 ∧
      drawLedgerLines 85 100 140 10 = [100 - 10] :=
  ⟨by norm_num, by norm_num, by norm_num,
    (ledger_lines_spec 85 100 140 10 (by norm_num) (by norm_num)).2.1 (by norm_num)⟩

end Canvas


namespace ScoreParser

/-- C2: for every step with a table entry (C through B giving 0 through
6), every integer octave and the pitch number p built from them, the
bass-clef part 2 maps to 130 - 5p and the octave-transposed treble
parts 0 and 1 map to 155 - 5p tenths below the staff top. -/
theorem pitchToYOffset_affine :
    (STEP_NUM ("C") = Option.some 0 ∧ STEP_NUM ("D") = Option.some 1 ∧
      STEP_NUM ("E") = Option.some 2 ∧ STEP_NUM ("F") = Option.some 3 ∧
      STEP_NUM ("G") = Option.some 4 ∧ STEP_NUM ("A") = Option.some 5 ∧
      STEP_NUM ("B") = Option.some 6) ∧
    ∀ (step : String) (stepVal octave : ℤ), STEP_NUM step = Option.some stepVal →
      (pitchToYOffset step octave 2 = Option.some (130 - 5 * (octave * 7 + stepVal)) ∧
        ∀ partIndex : ℕ, partIndex = 0 ∨ partIndex = 1 →
          pitchToYOffset step octave partIndex
            = Option.some (155 - 5 * (octave * 7 + stepVal))) := by
  refine ⟨⟨by decide, by decide, by decide, by decide, by decide, by decide, by decide⟩, ?_⟩
  intro step stepVal octave hstep
  constructor
  · simp [pitchToYOffset, hstep]
  · rintro partIndex (rfl | rfl) <;> simp [pitchToYOffset, hstep]

/-- Witness for C2 at step E, octave 4, part 0. -/
theorem pitchToYOffset_affine_witness :
    STEP_NUM ("E") = Option.some 2 ∧ (0 = 0 ∨ 0 = 1) ∧
      pitchToYOffset ("E") 4 0 = Option.some (155 - 5 * (4 * 7 + 2)) :=
  ⟨by decide, Or.inl rfl,
    (pitchToYOffset_affine.2 ("E") 2 4 (by decide)).2 0 (Or.inl rfl)⟩

/-- C3: for each of the eight measures, the start x is the left margin
plus the widths of the preceding measures of the measure's own system;
in particular measure 4, the first of system 1, starts at the bare left
margin. -/
theorem measureStartX_per_system :
    (∀ i, i < 8 → measureStartX i = specMeasureStartX i) ∧
      measureStartX 4 = LEFT_MARGIN + 0 := by
  constructor
  · decide
  · decide

/-- Witness for C3 at measure 4. -/
theorem measureStartX_per_system_witness :
    4 < 8 ∧ measureStartX 4 = specMeasureStartX 4 :=
  ⟨by norm_num, measureStartX_per_system.1 4 (by norm_num)⟩

/-- C7: the mock confidence of any seed triple equals 0.52 plus 0.48
times the 0.55 power of a hash-derived fraction in the half-open unit
interval, hence lies between 0.52 and 1; being a pure function of the
triple it is reproducible across calls. -/
theorem mockConfidence_range (partIdx measureIdx noteIdx : ℤ) :
    ∃ r : ℝ, 0 ≤ r ∧ r < 1 ∧
      mockConfidence partIdx measureIdx noteIdx = 0.52 + 0.48 * r ^ (0.55 : ℝ) ∧
      0.52 ≤ mockConfidence partIdx measureIdx noteIdx ∧
      mockConfidence partIdx measureIdx noteIdx ≤ 1 := by
  set x : ℝ := Real.sin
      (((partIdx * 1000 + measureIdx * 100 + noteIdx : ℤ) : ℝ) * 127.1 + 311.7)
      * 43758.5453123 with hx
  have hfor : mockConfidence partIdx measureIdx noteIdx
      = 0.52 + 0.48 * (Int.fract x) ^ (0.55 : ℝ) := rfl
  have hr0 : (0:ℝ) ≤ Int.fract x := Int.fract_nonneg x
  have hr1 : Int.fract x < 1 := Int.fract_lt_one x
  have hp0 : (0:ℝ) ≤ Int.fract x ^ (0.55 : ℝ) := Real.rpow_nonneg hr0 _
  have hp1 : Int.fract x ^ (0.55 : ℝ) ≤ 1 :=
    Real.rpow_le_one hr0 (le_of_lt hr1) (by norm_num)
  refine ⟨Int.fract x, hr0, hr1, hfor, ?_, ?_⟩
  · rw [hfor]
    nlinarith
  · rw [hfor]
    nlinarith

/-- A raw note without a rest marker and without a pitch, used by
witness instantiations. -/
def pitchlessRawNote : RawNote :=
  { pitch := Option.none, rest := false, type := Option.none,
    stem := Option.none, defaultX := Option.none }

/-- C8: parsing fails exactly when the score-partwise wrapper is
missing (the error carries no partial result by construction of
Except); a non-rest note whose duration type is absent or unrecognized
is kept with its type normalized to quarter; and a non-rest note
without a pitch is dropped by the note builder, which never aborts the
surrounding parse. -/
theorem parseScore_error_handling (json : RawScore) :
    (exceptOk (parseScore json) = false ↔ json.scorePartwise = Option.none) ∧
    (∀ (partIdx measureIdx : ℕ) (mNum : String) (mStartX : ℕ) (staffTop : Option ℕ)
        (noteIdx : ℕ) (rawNote : RawNote) (n : ParsedNote),
      rawNote.rest = false →
      (rawNote.type = Option.none ∨
        ∀ t, rawNote.type = Option.some t → t ∉ KNOWN_DURATIONS) →
      buildNote partIdx measureIdx mNum mStartX staffTop noteIdx (Option.some rawNote)
          = Option.some n →
      n.noteType = NoteType.quarter) ∧
    (∀ (partIdx measureIdx : ℕ) (mNum : String) (mStartX : ℕ) (staffTop : Option ℕ)
        (noteIdx : ℕ) (rawNote : RawNote),
      rawNote.rest = false → rawNote.pitch = Option.none →
      buildNote partIdx measureIdx mNum mStartX staffTop noteIdx (Option.some rawNote)
          = Option.none) := by
  refine ⟨?_, ?_, ?_⟩
  · cases hpw : json.scorePartwise with
    | none => simp [parseScore, hpw, exceptOk]
    | some pw => simp [parseScore, hpw, exceptOk]
  · intro partIdx measureIdx mNum mStartX staffTop noteIdx rawNote n hrest htype hbuild
    cases hp : rawNote.pitch with
    | none => simp [buildNote, hrest, hp] at hbuild
    | some pitch =>
      simp only [buildNote, hrest, Bool.false_eq_true, if_false, hp,
        Option.some.injEq] at hbuild
      rw [← hbuild]
      rcases htype with hnone | hunk
      · simp [hnone, normaliseNoteType]
      · cases ht : rawNote.type with
        | none => simp [ht, normaliseNoteType]
        | some t =>
          have hnotin := hunk t ht
          simp only [KNOWN_DURATIONS, List.mem_cons, List.not_mem_nil, or_false,
            not_or] at hnotin
          obtain ⟨h1, h2, h3, h4, h5, h6, h7⟩ := hnotin
          simp [ht, normaliseNoteType, h1, h2, h3, h4, h5, h6, h7]
  · intro partIdx measureIdx mNum mStartX staffTop noteIdx rawNote hrest hp
    simp [buildNote, hrest, hp]

/-- Witness for C8: the wrapperless document fails, and a concrete
pitchless non-rest note is dropped. -/
theorem parseScore_error_handling_witness :
    exceptOk (parseScore { scorePartwise := Option.none }) = false ∧
      buildNote 0 0 ("1") 130 (Option.some 333) 0 (Option.some pitchlessRawNote)
        = Option.none :=
  ⟨(parseScore_error_handling { scorePartwise := Option.none }).1.mpr rfl,
    (parseScore_error_handling { scorePartwise := Option.none }).2.2 0 0 ("1") 130
      (Option.some 333) 0 pitchlessRawNote rfl rfl⟩

/-- C10: whenever the wrapper is present the parse succeeds, for
arbitrary contents: absent single-or-array fields normalize to the
empty list through toArray; a non-rest pitched note with absent step,
octave and alter fields is kept and defaults to C, 4 and 0; and absent
attribute blocks default to the G clef on line 2 with no octave change,
zero fifths major, and 4-4 time. -/
theorem parseScore_total_defaults (json : RawScore) (pw : RawPartwise)
    (hpw : json.scorePartwise = Option.some pw) :
    exceptOk (parseScore json) = true ∧
    (∀ (α : Type), toArray (Option.none : Option (OneOrMany α)) = []) ∧
    (∀ (partIdx measureIdx : ℕ) (mNum : String) (mStartX : ℕ) (staffTop : Option ℕ)
        (noteIdx : ℕ) (rawNote : RawNote) (pitch : RawPitch),
      rawNote.rest = false → rawNote.pitch = Option.some pitch →
      pitch.step = Option.none → pitch.octave = Option.none →
      pitch.alter = Option.none →
      ((buildNote partIdx measureIdx mNum mStartX staffTop noteIdx
          (Option.some rawNote)).isSome = true ∧
        ∀ n, buildNote partIdx measureIdx mNum mStartX staffTop noteIdx
            (Option.some rawNote) = Option.some n →
          n.step = ("C") ∧ n.octave = 4 ∧ n.alter = 0)) ∧
    (parseClef Option.none = { sign := ("G"), line := 2, octaveChange := 0 } ∧
      parseKey Option.none = { fifths := 0, mode := ("major") } ∧
      parseTime Option.none
        = { beats := Option.some 4, beatType := Option.some 4, senzaMisura := false }) := by
  refine ⟨by simp [parseScore, hpw, exceptOk], fun α => rfl, ?_, rfl, rfl, rfl⟩
  intro partIdx measureIdx mNum mStartX staffTop noteIdx rawNote pitch hrest hp hstep hoct halt
  have hCup : strUpper ("C") = ("C") := by decide
  constructor
  · simp [buildNote, hrest, hp]
  · intro n hbuild
    simp only [buildNote, hrest, Bool.false_eq_true, if_false, hp,
      Option.some.injEq] at hbuild
    rw [← hbuild]
    refine ⟨?_, ?_, ?_⟩
    · simp [hstep, hCup]
    · simp [hoct]
    · simp [halt]

/-- Witness for C10 at the empty wrapped document. -/
theorem parseScore_total_defaults_witness :
    ({ scorePartwise := Option.some { part := Option.none, partList := Option.none } }
        : RawScore).scorePartwise
      = Option.some { part := Option.none, partList := Option.none } ∧
    exceptOk (parseScore
      { scorePartwise := Option.some { part := Option.none, partList := Option.none } })
      = true :=
  ⟨rfl,
    (parseScore_total_defaults
      { scorePartwise := Option.some { part := Option.none, partList := Option.none } }
      { part := Option.none, partList := Option.none } rfl).1⟩

/-- Digit characters of values below ten are digits. -/
theorem digitChar_isDigit : ∀ m, m < 10 → (Nat.digitChar m).isDigit = true := by
  decide

/-- Decimal value of a digit character of a value below ten. -/
theorem digitChar_val : ∀ m, m < 10 → (Nat.digitChar m).toNat - 48 = m := by
  decide

/-- Appending one character multiplies the accumulated value by ten and
adds the character value. -/
theorem charListVal_append (l : List Char) (c : Char) :
    charListVal (l ++ [c]) = charListVal l * 10 + (c.toNat - 48) := by
  simp [charListVal, List.foldl_append]

/-- With enough fuel the fuelled decimal rendering evaluates back to its
input. -/
theorem natCharsCore_val : ∀ (fuel n : ℕ), n < fuel →
    charListVal (natCharsCore fuel n) = n := by
  intro fuel
  induction fuel with
  | zero => intro n h; omega
  | succ fuel ih =>
    intro n h
    by_cases h10 : n < 10
    · simp only [natCharsCore, if_pos h10]
      have := digitChar_val n h10
      simp [charListVal]
      omega
    · have hdiv : n / 10 < fuel := by omega
      simp only [natCharsCore, if_neg h10]
      rw [charListVal_append, ih (n / 10) hdiv]
      have := digitChar_val (n % 10) (Nat.mod_lt n (by omega))
      omega

/-- The decimal rendering evaluates back to its input. -/
theorem natChars_val (n : ℕ) : charListVal (natChars n) = n :=
  natCharsCore_val (n + 1) n (Nat.lt_succ_self n)

/-- The decimal rendering is injective. -/
theorem natChars_inj (a b : ℕ) (h : natChars a = natChars b) : a = b := by
  have ha := natChars_val a
  rw [h, natChars_val b] at ha
  exact ha.symm

/-- Every character the fuelled decimal rendering emits is a digit. -/
theorem natCharsCore_digits : ∀ (fuel n : ℕ), ∀ c ∈ natCharsCore fuel n,
    c.isDigit = true := by
  intro fuel
  induction fuel with
  | zero =>
    intro n c hc
    simp [natCharsCore] at hc
  | succ fuel ih =>
    intro n c hc
    simp only [natCharsCore] at hc
    by_cases h10 : n < 10
    · rw [if_pos h10] at hc
      simp only [List.mem_singleton] at hc
      subst hc
      exact digitChar_isDigit n h10
    · rw [if_neg h10] at hc
      rcases List.mem_append.mp hc with h1 | h2
      · exact ih (n / 10) c h1
      · simp only [List.mem_singleton] at h2
        subst h2
        exact digitChar_isDigit (n % 10) (Nat.mod_lt n (by omega))

/-- Every character of the decimal rendering is a digit. -/
theorem natChars_digits (n : ℕ) : ∀ c ∈ natChars n, c.isDigit = true :=
  natCharsCore_digits (n + 1) n

/-- Splitting at a non-digit separator preceded only by digits is
unambiguous. -/
theorem sepSplitLeft (sep : Char) (hsep : sep.isDigit = false) :
    ∀ (xs xs' ys ys' : List Char),
      (∀ c ∈ xs, c.isDigit = true) → (∀ c ∈ xs', c.isDigit = true) →
      xs ++ sep :: ys = xs' ++ sep :: ys' → xs = xs' ∧ ys = ys' := by
  intro xs
  induction xs with
  | nil =>
    intro xs' ys ys' _ hx' heq
    cases xs' with
    | nil =>
      simp only [List.nil_append] at heq
      injection heq with _ h2
      exact ⟨rfl, h2⟩
    | cons a t =>
      simp only [List.nil_append, List.cons_append] at heq
      injection heq with h1 h2
      have ha := hx' a (List.mem_cons_self a t)
      rw [← h1, hsep] at ha
      simp at ha
  | cons a t ih =>
    intro xs' ys ys' hx hx' heq
    cases xs' with
    | nil =>
      simp only [List.nil_append, List.cons_append] at heq
      injection heq with h1 h2
      have ha := hx a (List.mem_cons_self a t)
      rw [h1, hsep] at ha
      simp at ha
    | cons b t' =>
      simp only [List.cons_append] at heq
      injection heq with h1 h2
      obtain ⟨h3, h4⟩ := ih t' ys ys'
        (fun c hc => hx c (List.mem_cons_of_mem a hc))
        (fun c hc => hx' c (List.mem_cons_of_mem b hc)) h2
      refine ⟨?_, h4⟩
      rw [h1, h3]

/-- Splitting at a non-digit separator followed only by digits is
unambiguous. -/
theorem sepSplitRight (sep : Char) (hsep : sep.isDigit = false) :
    ∀ (ms ms' ks ks' : List Char),
      (∀ c ∈ ks, c.isDigit = true) → (∀ c ∈ ks', c.isDigit = true) →
      ms ++ sep :: ks = ms' ++ sep :: ks' → ms = ms' ∧ ks = ks' := by
  intro ms
  induction ms with
  | nil =>
    intro ms' ks ks' hk hk' heq
    cases ms' with
    | nil =>
      simp only [List.nil_append] at heq
      injection heq with _ h2
      exact ⟨rfl, h2⟩
    | cons a t =>
      simp only [List.nil_append, List.cons_append] at heq
      injection heq with h1 h2
      have hmem : sep ∈ ks := by
        rw [h2]
        exact List.mem_append_right t (List.mem_cons_self sep ks')
      have := hk sep hmem
      rw [hsep] at this
      simp at this
  | cons a t ih =>
    intro ms' ks ks' hk hk' heq
    cases ms' with
    | nil =>
      simp only [List.nil_append, List.cons_append] at heq
      injection heq with h1 h2
      have hmem : sep ∈ ks' := by
        rw [← h2]
        exact List.mem_append_right t (List.mem_cons_self sep ks)
      have := hk' sep hmem
      rw [hsep] at this
      simp at this
    | cons b t' =>
      simp only [List.cons_append] at heq
      injection heq with h1 h2
      obtain ⟨h3, h4⟩ := ih t' ks ks' hk hk' h2
      refine ⟨?_, h4⟩
      rw [h1, h3]

/-- The character content of a note id. -/
theorem noteId_data (i k : ℕ) (m : String) :
    (noteId i m k).data
      = 'p' :: (natChars i ++ '-' :: 'm' :: (m.data ++ '-' :: 'n' :: natChars k)) := by
  simp [noteId, natString, String.data_append]

/-- The note id template is injective in all three components: the part
index, the measure label and the note index. -/
theorem noteId_inj (i i' k k' : ℕ) (m m' : String)
    (h : noteId i m k = noteId i' m' k') : i = i' ∧ m = m' ∧ k = k' := by
  have hd : (noteId i m k).data = (noteId i' m' k').data := by rw [h]
  rw [noteId_data, noteId_data] at hd
  injection hd with _ hd1
  obtain ⟨hi, hd2⟩ := sepSplitLeft '-' (by decide) (natChars i) (natChars i') _ _
    (natChars_digits i) (natChars_digits i') hd1
  injection hd2 with _ hd3
  have hre : (m.data ++ ['-']) ++ 'n' :: natChars k
      = (m'.data ++ ['-']) ++ 'n' :: natChars k' := by
    simpa using hd3
  obtain ⟨hm1, hk1⟩ := sepSplitRight 'n' (by decide) (m.data ++ ['-']) (m'.data ++ ['-'])
    _ _ (natChars_digits k) (natChars_digits k') hre
  refine ⟨natChars_inj _ _ hi, ?_, natChars_inj _ _ hk1⟩
  exact String.ext (List.append_cancel_right hm1)

/-- A note the builder accepts carries the id built from the builder's
part index, measure label and note index. -/
theorem buildNote_fields (partIdx measureIdx : ℕ) (mNum : String) (mStartX : ℕ)
    (staffTop : Option ℕ) (noteIdx : ℕ) (orn : Option RawNote) (n : ParsedNote)
    (h : buildNote partIdx measureIdx mNum mStartX staffTop noteIdx orn
      = Option.some n) :
    n.id = noteId partIdx mNum noteIdx := by
  cases orn with
  | none => simp [buildNote] at h
  | some rawNote =>
    by_cases hrest : rawNote.rest
    · simp [buildNote, hrest] at h
    · cases hp : rawNote.pitch with
      | none => simp [buildNote, hrest, hp] at h
      | some pitch =>
        simp only [buildNote, hrest, Bool.false_eq_true, if_false, hp,
          Option.some.injEq] at h
        rw [← h]

/-- Every note the measure loop emits from start index k0 carries an id
built from the loop's part index and measure label at some note index at
least k0. -/
theorem measureNotesAux_mem (partIdx measureIdx : ℕ) (mNum : String) (mStartX : ℕ)
    (staffTop : Option ℕ) :
    ∀ (l : List (Option RawNote)) (k0 : ℕ) (n : ParsedNote),
      n ∈ measureNotesAux partIdx measureIdx mNum mStartX staffTop k0 l →
      ∃ k, k0 ≤ k ∧ n.id = noteId partIdx mNum k := by
  intro l
  induction l with
  | nil =>
    intro k0 n hn
    simp [measureNotesAux] at hn
  | cons orn rest ih =>
    intro k0 n hn
    cases hb : buildNote partIdx measureIdx mNum mStartX staffTop k0 orn with
    | some n0 =>
      simp only [measureNotesAux, hb] at hn
      rcases List.mem_cons.mp hn with rfl | hn2
      · exact ⟨k0, le_refl k0, buildNote_fields _ _ _ _ _ _ _ _ hb⟩
      · obtain ⟨k, hk1, hk2⟩ := ih (k0 + 1) n hn2
        exact ⟨k, by omega, hk2⟩
    | none =>
      simp only [measureNotesAux, hb] at hn
      obtain ⟨k, hk1, hk2⟩ := ih (k0 + 1) n hn
      exact ⟨k, by omega, hk2⟩

/-- The ids the measure loop emits are pairwise distinct: distinct note
indices give distinct ids. -/
theorem measureNotesAux_nodup (partIdx measureIdx : ℕ) (mNum : String) (mStartX : ℕ)
    (staffTop : Option ℕ) :
    ∀ (l : List (Option RawNote)) (k0 : ℕ),
      ((measureNotesAux partIdx measureIdx mNum mStartX staffTop k0 l).map
        ParsedNote.id).Nodup := by
  intro l
  induction l with
  | nil =>
    intro k0
    simp [measureNotesAux]
  | cons orn rest ih =>
    intro k0
    cases hb : buildNote partIdx measureIdx mNum mStartX staffTop k0 orn with
    | none =>
      simp only [measureNotesAux, hb]
      exact ih (k0 + 1)
    | some n0 =>
      simp only [measureNotesAux, hb, List.map_cons]
      rw [List.nodup_cons]
      refine ⟨?_, ih (k0 + 1)⟩
      intro hmem
      obtain ⟨n, hn, hid⟩ := List.mem_map.mp hmem
      obtain ⟨k, hk1, hk2⟩ := measureNotesAux_mem partIdx measureIdx mNum mStartX
        staffTop rest (k0 + 1) n hn
      have hid0 : n0.id = noteId partIdx mNum k0 :=
        buildNote_fields _ _ _ _ _ _ _ _ hb
      rw [hk2, hid0] at hid
      obtain ⟨_, _, hkk⟩ := noteId_inj _ _ _ _ _ _ hid
      omega

/-- Every note the measure-walking loop of a part emits carries an id
built from the part index and one of the measure labels the loop
resolves. -/
theorem partNotesAux_mem (partIdx : ℕ) :
    ∀ (ms : List RawMeasure) (j0 : ℕ) (n : ParsedNote),
      n ∈ partNotesAux partIdx j0 ms →
      ∃ mn k, mn ∈ resolvedMNumsAux j0 ms ∧ n.id = noteId partIdx mn k := by
  intro ms
  induction ms with
  | nil =>
    intro j0 n hn
    simp [partNotesAux] at hn
  | cons m rest ih =>
    intro j0 n hn
    simp only [partNotesAux] at hn
    rcases List.mem_append.mp hn with h1 | h2
    · obtain ⟨k, _, hk⟩ := measureNotesAux_mem partIdx j0 (resolveMNum m j0)
        (measureStartX j0) _ (toArray m.note) 0 n (by simpa [measureNotes] using h1)
      refine ⟨resolveMNum m j0, k, ?_, hk⟩
      simp [resolvedMNumsAux]
    · obtain ⟨mn, k, hmn, hk⟩ := ih (j0 + 1) n h2
      exact ⟨mn, k, List.mem_cons_of_mem _ hmn, hk⟩

/-- If a part resolves pairwise distinct measure labels, the ids its
measure-walking loop emits are pairwise distinct. -/
theorem partNotesAux_nodup (partIdx : ℕ) :
    ∀ (ms : List RawMeasure) (j0 : ℕ), (resolvedMNumsAux j0 ms).Nodup →
      ((partNotesAux partIdx j0 ms).map ParsedNote.id).Nodup := by
  intro ms
  induction ms with
  | nil =>
    intro j0 _
    simp [partNotesAux]
  | cons m rest ih =>
    intro j0 hnodup
    simp only [resolvedMNumsAux, List.nodup_cons] at hnodup
    obtain ⟨hnotin, hnd⟩ := hnodup
    simp only [partNotesAux, List.map_append]
    apply List.Nodup.append
    · have hthis := measureNotesAux_nodup partIdx j0 (resolveMNum m j0)
        (measureStartX j0)
        ((STAFF_TOPS.get? (SYS_OF_MEASURE j0)).bind fun row => row.get? partIdx)
        (toArray m.note) 0
      simpa [measureNotes] using hthis
    · exact ih (j0 + 1) hnd
    · intro a ha hb
      obtain ⟨n1, hn1, hid1⟩ := List.mem_map.mp ha
      obtain ⟨n2, hn2, hid2⟩ := List.mem_map.mp hb
      obtain ⟨k1, _, hk1⟩ := measureNotesAux_mem partIdx j0 (resolveMNum m j0)
        (measureStartX j0) _ (toArray m.note) 0 n1 (by simpa [measureNotes] using hn1)
      obtain ⟨mn, k2, hmn, hk2⟩ := partNotesAux_mem partIdx rest (j0 + 1) n2 hn2
      have heq : noteId partIdx (resolveMNum m j0) k1 = noteId partIdx mn k2 := by
        rw [← hk1, ← hk2, hid1, hid2]
      obtain ⟨_, hmm2, _⟩ := noteId_inj _ _ _ _ _ _ heq
      rw [← hmm2] at hmn
      exact hnotin hmn

/-- Every note the part-walking loop emits carries an id built from a
part index at least the loop's start index. -/
theorem allNotesAux_mem :
    ∀ (ps : List RawPart) (i0 : ℕ) (n : ParsedNote), n ∈ allNotesAux i0 ps →
      ∃ i mn k, i0 ≤ i ∧ n.id = noteId i mn k := by
  intro ps
  induction ps with
  | nil =>
    intro i0 n hn
    simp [allNotesAux] at hn
  | cons p rest ih =>
    intro i0 n hn
    simp only [allNotesAux] at hn
    rcases List.mem_append.mp hn with h1 | h2
    · obtain ⟨mn, k, _, hk⟩ := partNotesAux_mem i0 (toArray p.measure) 0 n
        (by simpa [partNotes] using h1)
      exact ⟨i0, mn, k, le_refl _, hk⟩
    · obtain ⟨i, mn, k, hi, hk⟩ := ih (i0 + 1) n h2
      exact ⟨i, mn, k, by omega, hk⟩

/-- If every part resolves pairwise distinct measure labels, the ids the
part-walking loop emits are pairwise distinct. -/
theorem allNotesAux_nodup :
    ∀ (ps : List RawPart) (i0 : ℕ), (∀ p ∈ ps, (resolvedMNums p).Nodup) →
      ((allNotesAux i0 ps).map ParsedNote.id).Nodup := by
  intro ps
  induction ps with
  | nil =>
    intro i0 _
    simp [allNotesAux]
  | cons p rest ih =>
    intro i0 hnums
    simp only [allNotesAux, List.map_append]
    apply List.Nodup.append
    · have h0 := hnums p (List.mem_cons_self p rest)
      have hthis := partNotesAux_nodup i0 (toArray p.measure) 0
        (by simpa [resolvedMNums] using h0)
      simpa [partNotes] using hthis
    · exact ih (i0 + 1) fun q hq => hnums q (List.mem_cons_of_mem p hq)
    · intro a ha hb
      obtain ⟨n1, hn1, hid1⟩ := List.mem_map.mp ha
      obtain ⟨n2, hn2, hid2⟩ := List.mem_map.mp hb
      obtain ⟨mn1, k1, _, hk1⟩ := partNotesAux_mem i0 (toArray p.measure) 0 n1
        (by simpa [partNotes] using hn1)
      obtain ⟨i, mn2, k2, hi, hk2⟩ := allNotesAux_mem rest (i0 + 1) n2 hn2
      have heq : noteId i0 mn1 k1 = noteId i mn2 k2 := by
        rw [← hk1, ← hk2, hid1, hid2]
      obtain ⟨hii, _, _⟩ := noteId_inj _ _ _ _ _ _ heq
      omega

/-- C9 counterexample: a document whose single part labels two measures
with the same number parses successfully but yields two notes with the
same id, so ids of an accepted document need not be pairwise
distinct. -/
theorem parseScore_duplicate_ids_counterexample :
    exceptOk (parseScore dupLabelDoc) = true ∧
      okIds (parseScore dupLabelDoc) = [("p0-m1-n0"), ("p0-m1-n0")] ∧
      ¬ (okIds (parseScore dupLabelDoc)).Nodup := by
  have heval : okIds (parseScore dupLabelDoc) = [("p0-m1-n0"), ("p0-m1-n0")] := rfl
  refine ⟨rfl, heval, ?_⟩
  rw [heval]
  decide

/-- C9 (amended): for every accepted document in which each part's
resolved measure labels are pairwise distinct, the ids of the returned
notes are pairwise distinct; being outputs of a pure function they are
also reproducible across re-parses. -/
theorem parseScore_unique_ids (json : RawScore) (pw : RawPartwise)
    (hpw : json.scorePartwise = Option.some pw)
    (hnums : ∀ p ∈ toArray pw.part, (resolvedMNums p).Nodup) :
    (okIds (parseScore json)).Nodup := by
  simp only [parseScore, hpw, okIds]
  exact allNotesAux_nodup (toArray pw.part) 0 hnums

/-- Witness for C9 (amended) on a document with measure labels 1 and
2. -/
theorem parseScore_unique_ids_witness :
    (∀ p ∈ toArray distinctLabelPartwise.part, (resolvedMNums p).Nodup) ∧
      (okIds (parseScore distinctLabelDoc)).Nodup :=
  ⟨by decide,
    parseScore_unique_ids distinctLabelDoc distinctLabelPartwise rfl (by decide)⟩

end ScoreParser




end Harmonia
